import Mathlib

/-!
Verification of the msdsl equation-to-discrete-dynamics compiler.

This file shallowly embeds the relevant parts of the repository:

* `src/msdsl/eqn/cases.py` — `subst_case`, `address_to_settings`, `eqn_case`,
  class `EqnCase` (`get_address`, `get_case`);
* `src/msdsl/model.py` — class `MixedSignalModel` (`add_signal`, `get_signal`,
  `get_signals`, `get_analog_inputs`, `add_assignment`, `set_this_cycle`,
  `set_next_cycle`, `bind_name`, `get_equation_io`, `add_eqn_sys`,
  `add_discrete_time_lds`).

Parts of the repository that the above code imports are not present under the
source tree that is being verified (`msdsl.expr.expr`, `msdsl.expr.signals`,
`msdsl.expr.analyze`, `msdsl.eqn.eqn_sys`, `msdsl.eqn.lds`, `msdsl.util`).
Those parts are modelled from the specification; each such definition carries a
doc comment beginning with `Modelled from the spec:`.

Python mutability is embedded by explicit state passing (`Model` in, `Model`
out); Python `assert`/`raise` is embedded by `Except String`.
-/

namespace Msdsl

/-- Modelled from the spec: signal format descriptors (`msdsl.expr.format`,
not under src/). §3: format for analog is a real range descriptor, for digital
a bit width plus signedness (`UIntFormat` / `SIntFormat`). -/
inductive SigFormat where
  | real
  | uint (width : Nat)
  | sint (width : Nat)
  deriving DecidableEq, Repr

/-- Modelled from the spec: the signal class hierarchy (`msdsl.expr.signals`,
not under src/). §3 roles; `analogPlain`/`digitalPlain` stand for the plain
`AnalogSignal`/`DigitalSignal` classes and `base` for the plain `Signal` class
used by `bind_name`. -/
inductive SigKind where
  | analogInput
  | analogOutput
  | analogState
  | analogPlain
  | digitalInput
  | digitalOutput
  | digitalState
  | digitalPlain
  | base
  deriving DecidableEq, Repr

/-- Modelled from the spec: a declared signal (`msdsl.expr.signals`, not under
src/): unique name, role and format (§3).  Initial values and range bounds are
not consulted by any of the verified operations and are omitted. -/
structure Signal where
  name : String
  kind : SigKind
  format : SigFormat
  deriving DecidableEq, Repr

/-- Python `isinstance(s, DigitalSignal)`: the digital classes
(`DigitalSignal` and its subclasses `DigitalInput`, `DigitalOutput`,
`DigitalState`). -/
def Signal.isDigitalSignal (s : Signal) : Bool :=
  match s.kind with
  | .digitalInput | .digitalOutput | .digitalState | .digitalPlain => true
  | _ => false

/-- Modelled from the spec: the expression model (`msdsl.expr.expr`, not under
src/) as described in §3, plus the `EqnCase` node of
`src/msdsl/eqn/cases.py` and the derivative marker (`msdsl.eqn.deriv`, not
under src/, §4.2: states are the signals appearing as the argument of a
derivative marker). -/
inductive Expr where
  | const (val : ℚ)
  | sig (s : Signal)
  | sum (operands : List Expr)
  | product (operands : List Expr)
  | equalTo (lhs rhs : Expr)
  | concat (signals : List Signal)
  | array (values : List Expr) (sel : Option Expr)
  | eqnCase (cases : List Expr) (sel_bits : List Signal)
  | deriv (s : Signal)

/-- A Python dict from selector names to bit values, in write order
(`address_to_settings` builds one by iterated assignment). -/
abbrev Dict := List (String × Nat)

/-- Python dict lookup `d[k]`: the most recent write wins; `none` is a
`KeyError`. -/
def dictGet (d : Dict) (k : String) : Option Nat :=
  (d.reverse.find? (fun p => p.1 = k)).map (·.2)

/-! ## src/msdsl/eqn/cases.py -/

/-- The loop body of `EqnCase.get_address` (cases.py lines 77–79): shift the
accumulator left and OR in the selector's bit
(`1 if sel_bit_settings[name] else 0`, i.e. 1 for a truthy value).  Since the
accumulator's low bit is clear after the shift, `addr <<= 1; addr |= b` is
`addr * 2 + b`.  A missing key is a Python `KeyError`. -/
def gaStep (sel_bit_settings : Dict) (addr : Nat) (sel_bit : Signal) :
    Except String Nat :=
  match dictGet sel_bit_settings sel_bit.name with
  | none => .error ("KeyError: " ++ sel_bit.name)
  | some v => .ok (addr * 2 + (if v ≠ 0 then 1 else 0))

/-- `EqnCase.get_address` (cases.py lines 72–80): iterate the node's own
selector list in declared order, folding `gaStep` from 0. -/
def get_address (sel_bits : List Signal) (sel_bit_settings : Dict) :
    Except String Nat :=
  sel_bits.foldlM (gaStep sel_bit_settings) 0

/-- `EqnCase.get_case` (cases.py lines 82–84): `self.cases[self.get_address(...)]`;
an out-of-range index is a Python `IndexError`. -/
def get_case (cases : List Expr) (sel_bits : List Signal)
    (sel_bit_settings : Dict) : Except String Expr :=
  match get_address sel_bits sel_bit_settings with
  | .error e => .error e
  | .ok addr =>
    match cases[addr]? with
    | none => .error "IndexError: list index out of range"
    | some c => .ok c

/-- The dictionary built by `address_to_settings` (cases.py lines 34–36):
iterate over the reversed selector list, mapping the selector at reversed
position `idx` to bit `(address >> idx) & 1`. -/
def settingsEntries (address : Nat) (sel_bits : List Signal) : Dict :=
  sel_bits.reverse.enum.map (fun p => (p.2.name, (address >>> p.1) &&& 1))

/-- `address_to_settings` (cases.py lines 28–39): checks
`0 <= address <= 2**len(sel_bits) - 1` (negative addresses cannot arise for a
`Nat`), then builds the settings dictionary. -/
def address_to_settings (address : Nat) (sel_bits : List Signal) :
    Except String Dict :=
  if address ≤ 2 ^ sel_bits.length - 1 then
    .ok (settingsEntries address sel_bits)
  else
    .error ("The address " ++ toString address ++ " cannot be represented.")

mutual

/-- `subst_case` (cases.py lines 9–26).  An `EqnCase` node is resolved via
`get_case` and the chosen branch is substituted again (nested cases);
`EqualTo` is rebuilt from the substituted sides; `Sum`/`Product` are rebuilt
with `sum_op`/`prod_op` over the substituted operands; every other node passes
through unchanged.  `sum_op` and `prod_op` (`msdsl.expr.expr`, not under src/)
are modelled from the spec as building the `Sum`/`Product` variant from the
operand list (§3). -/
def subst_case (expr : Expr) (sel_bit_settings : Dict) : Except String Expr :=
  match expr with
  | .eqnCase cases sel_bits =>
    match get_address sel_bits sel_bit_settings with
    | .error e => .error e
    | .ok addr =>
      if h : addr < cases.length then
        have : sizeOf (cases.get ⟨addr, h⟩) < 1 + sizeOf cases + sizeOf sel_bits := by
          have hm := List.sizeOf_lt_of_mem (cases.get_mem addr h)
          omega
        subst_case (cases.get ⟨addr, h⟩) sel_bit_settings
      else .error "IndexError: list index out of range"
  | .equalTo lhs rhs =>
    match subst_case lhs sel_bit_settings with
    | .error e => .error e
    | .ok lhs' =>
      match subst_case rhs sel_bit_settings with
      | .error e => .error e
      | .ok rhs' => .ok (.equalTo lhs' rhs')
  | .sum operands =>
    match subst_case_list operands sel_bit_settings with
    | .error e => .error e
    | .ok operands' => .ok (.sum operands')
  | .product operands =>
    match subst_case_list operands sel_bit_settings with
    | .error e => .error e
    | .ok operands' => .ok (.product operands')
  | e => .ok e
termination_by sizeOf expr

/-- Elementwise `subst_case` over an operand list (the generator expressions at
cases.py lines 22 and 24). -/
def subst_case_list (l : List Expr) (sel_bit_settings : Dict) :
    Except String (List Expr) :=
  match l with
  | [] => .ok []
  | x :: xs =>
    match subst_case x sel_bit_settings with
    | .error e => .error e
    | .ok x' =>
      match subst_case_list xs sel_bit_settings with
      | .error e => .error e
      | .ok xs' => .ok (x' :: xs')
termination_by sizeOf l

end

/-- Modelled from the spec: `wrap_constants` (`msdsl.expr.expr`, not under
src/).  §1 places the wrapping of literal constants into typed expressions out
of scope; it preserves the length and order of the case list, so it is
represented as the identity on expression lists (the inputs of the embedding
are already expressions). -/
def wrap_constants (cases : List Expr) : List Expr := cases

/-- Modelled from the spec: `promote_operands` (`msdsl.expr.expr`, not under
src/).  §1 places format-promotion arithmetic out of scope; promotion to a
shared numeric format preserves the length, order and non-Case structure of
the case list, so it is represented as the identity on expression lists. -/
def promote_operands (cases : List Expr) : List Expr := cases

/-- The selector check of `eqn_case` (cases.py lines 47–48):
`isinstance(sel_bit, DigitalSignal) and isinstance(sel_bit.format, UIntFormat)
and sel_bit.format.width == 1`. -/
def isOneBitUnsignedDigital (sel_bit : Signal) : Bool :=
  sel_bit.isDigitalSignal && (sel_bit.format == SigFormat.uint 1)

/-- `eqn_case` (cases.py lines 41–57): wrap and promote the cases, assert that
every selector is a one-bit unsigned digital signal, assert that the case
count is `2**len(sel_bits)`, reject an empty case list, collapse a singleton
case list to the sole case, and otherwise build an `EqnCase` node. -/
def eqn_case (cases : List Expr) (sel_bits : List Signal) : Except String Expr :=
  let cases := promote_operands (wrap_constants cases)
  if ¬ (sel_bits.all isOneBitUnsignedDigital) then
    .error "Selection bits for an EqnCase must all be 1-bit unsigned digital signals."
  else if cases.length ≠ 2 ^ sel_bits.length then
    .error "Case table length must match 2**len(sel_bits)."
  else
    match cases with
    | [] => .error "EqnCase must have at least one case."
    | [c] => .ok c
    | cs => .ok (.eqnCase cs sel_bits)

/-! ## src/msdsl/model.py -/

/-- The three assignment kinds of `msdsl.assignment` (not under src/);
modelled from the spec: timing ∈ ThisCycle, NextCycle, Binding (§3). -/
inductive Timing where
  | thisCycle
  | nextCycle
  | binding
  deriving DecidableEq, Repr

/-- Modelled from the spec: an assignment record (§3): target signal, source
expression and timing kind (`ThisCycleAssignment` / `NextCycleAssignment` /
`BindingAssignment` of `msdsl.assignment`, not under src/). -/
structure Assignment where
  signal : Signal
  expr : Expr
  timing : Timing

/-- The mutable state of a `MixedSignalModel` (model.py lines 20–30):
`module_name`, `dt`, the ordered signal dictionary and the ordered assignment
dictionary.  Both Python dictionaries are keyed by the signal's name, so they
are embedded as insertion-ordered lists looked up by name.  The `Namer`
(`msdsl.util`, not under src/) tracks exactly the names added by
`add_signal`, so its contents coincide with the signal dictionary's keys.
Probes are not consulted by any verified operation and are omitted. -/
structure Model where
  module_name : String
  dt : Option ℚ
  signals : List Signal
  assignments : List Assignment

/-- `has_signal` (model.py lines 72–73). -/
def has_signal (m : Model) (name : String) : Bool :=
  m.signals.any (fun s => s.name == name)

/-- `get_signal` (model.py lines 75–77): asserts that the signal exists and
returns it. -/
def get_signal (m : Model) (name : String) : Except String Signal :=
  match m.signals.find? (fun s => s.name == name) with
  | some s => .ok s
  | none => .error ("The signal " ++ name ++ " has not been defined.")

/-- `get_signals` (model.py lines 79–80). -/
def get_signals (m : Model) (names : List String) : Except String (List Signal) :=
  names.mapM (get_signal m)

/-- `get_analog_inputs` (model.py lines 82–83): the declared signals that are
`AnalogInput` instances, in declaration order. -/
def get_analog_inputs (m : Model) : List Signal :=
  m.signals.filter (fun s => s.kind == SigKind.analogInput)

/-- `get_digital_inputs` (model.py lines 88–89). -/
def get_digital_inputs (m : Model) : List Signal :=
  m.signals.filter (fun s => s.kind == SigKind.digitalInput)

/-- `add_signal` (model.py lines 39–48): `namer.add_name` checks that the name
is not already taken, then the signal is appended to the signal dictionary. -/
def add_signal (m : Model) (s : Signal) : Except String Model :=
  if has_signal m s.name then
    .error ("The name " ++ s.name ++ " is already taken.")
  else
    .ok { m with signals := m.signals ++ [s] }

/-- The keys of the assignment dictionary, in insertion order. -/
def assignmentKeys (m : Model) : List String :=
  m.assignments.map (fun a => a.signal.name)

/-- `has_assignment` (model.py lines 125–126). -/
def has_assignment (m : Model) (name : String) : Bool :=
  m.assignments.any (fun a => a.signal.name == name)

/-- `add_assignment` (model.py lines 96–99): asserts that the target signal's
name has no assignment yet, then inserts the assignment keyed by that name. -/
def add_assignment (m : Model) (a : Assignment) : Except String Model :=
  if has_assignment m a.signal.name then
    .error ("The signal " ++ a.signal.name ++ " has already been assigned.")
  else
    .ok { m with assignments := m.assignments ++ [a] }

/-- `set_this_cycle` (model.py lines 101–102). -/
def set_this_cycle (m : Model) (signal : Signal) (expr : Expr) :
    Except String Model :=
  add_assignment m ⟨signal, expr, .thisCycle⟩

/-- `set_next_cycle` (model.py lines 104–105). -/
def set_next_cycle (m : Model) (signal : Signal) (expr : Expr) :
    Except String Model :=
  add_assignment m ⟨signal, expr, .nextCycle⟩

/-- Modelled from the spec: `wrap_constant` (`msdsl.expr.expr`, not under
src/): out of scope per §1; the identity on an already-typed expression. -/
def wrap_constant (e : Expr) : Expr := e

/-- Modelled from the spec: the derived format of an expression node (§3).
Only the format of the signal created by `bind_name` depends on it, and no
verified claim inspects that format; a signal reference keeps the signal's
format and every other node is given the analog real format. -/
def exprFormat : Expr → SigFormat
  | .sig s => s.format
  | _ => .real

/-- `bind_name` (model.py lines 107–121): wrap the expression, create a plain
`Signal` holding the result, add it to the model, then add a
`BindingAssignment` for it. -/
def bind_name (m : Model) (name : String) (expr : Expr) : Except String Model := do
  let expr := wrap_constant expr
  let signal : Signal := ⟨name, .base, exprFormat expr⟩
  let m ← add_signal m signal
  add_assignment m ⟨signal, expr, .binding⟩

/-! ## The equation-system analyzer's inputs
(`msdsl.eqn.eqn_sys` and `msdsl.expr.analyze`, not under src/) -/

mutual

/-- Modelled from the spec: the signals referenced by an expression, anywhere
in the tree including inside Case branches before substitution (§4.2).
Selector bits of a Case node are not referenced operands; §4.2 keeps them in
their own class ("signals used exclusively as Case selectors"), so they are
collected separately by `collectSelBits`. -/
def collectSignals (e : Expr) : List Signal :=
  match e with
  | .const _ => []
  | .sig s => [s]
  | .sum operands => collectSignalsList operands
  | .product operands => collectSignalsList operands
  | .equalTo lhs rhs => collectSignals lhs ++ collectSignals rhs
  | .concat signals => signals
  | .array values sel =>
    collectSignalsList values ++
      (match sel with
       | none => []
       | some s => collectSignals s)
  | .eqnCase cases _ => collectSignalsList cases
  | .deriv s => [s]

/-- Elementwise `collectSignals`. -/
def collectSignalsList (l : List Expr) : List Signal :=
  match l with
  | [] => []
  | x :: xs => collectSignals x ++ collectSignalsList xs

end

mutual

/-- Modelled from the spec: the signals appearing as the argument of a
derivative marker (§4.2), collected anywhere in the tree. -/
def collectDerivs (e : Expr) : List Signal :=
  match e with
  | .deriv s => [s]
  | .sum operands => collectDerivsList operands
  | .product operands => collectDerivsList operands
  | .equalTo lhs rhs => collectDerivs lhs ++ collectDerivs rhs
  | .array values sel =>
    collectDerivsList values ++
      (match sel with
       | none => []
       | some s => collectDerivs s)
  | .eqnCase cases _ => collectDerivsList cases
  | _ => []

/-- Elementwise `collectDerivs`. -/
def collectDerivsList (l : List Expr) : List Signal :=
  match l with
  | [] => []
  | x :: xs => collectDerivs x ++ collectDerivsList xs

end

mutual

/-- Modelled from the spec: the Case selector signals of an expression
(§4.2 "selector bits"), collected from every Case node in the tree, nested
branches included. -/
def collectSelBits (e : Expr) : List Signal :=
  match e with
  | .sum operands => collectSelBitsList operands
  | .product operands => collectSelBitsList operands
  | .equalTo lhs rhs => collectSelBits lhs ++ collectSelBits rhs
  | .array values sel =>
    collectSelBitsList values ++
      (match sel with
       | none => []
       | some s => collectSelBits s)
  | .eqnCase cases sel_bits => sel_bits ++ collectSelBitsList cases
  | _ => []

/-- Elementwise `collectSelBits`. -/
def collectSelBitsList (l : List Expr) : List Signal :=
  match l with
  | [] => []
  | x :: xs => collectSelBits x ++ collectSelBitsList xs

end

/-- Modelled from the spec: `EqnSys` (`msdsl.eqn.eqn_sys`, not under src/):
an ordered list of `EqualTo` equations forming one logical system (§3). -/
structure EqnSys where
  eqns : List Expr

/-- Modelled from the spec: `EqnSys.get_all_signals`: the signals referenced
anywhere in the system's equations (§4.2). -/
def EqnSys.get_all_signals (sys : EqnSys) : List Signal :=
  sys.eqns.flatMap collectSignals

/-- Modelled from the spec: `EqnSys.get_states`: the signals appearing as the
argument of a derivative marker (§4.2). -/
def EqnSys.get_states (sys : EqnSys) : List Signal :=
  sys.eqns.flatMap collectDerivs

/-- Modelled from the spec: `EqnSys.get_derivs`: the derivative markers of the
system; each marker wraps its state signal, so the marker set is keyed by the
same signals as `get_states`. -/
def EqnSys.get_derivs (sys : EqnSys) : List Signal :=
  sys.eqns.flatMap collectDerivs

/-- Modelled from the spec: `EqnSys.get_sel_bits`: the Case selector signals
of the system (§4.2). -/
def EqnSys.get_sel_bits (sys : EqnSys) : List Signal :=
  sys.eqns.flatMap collectSelBits

/-- Modelled from the spec: `signal_names` (`msdsl.expr.analyze`, not under
src/): the set of names of a list of signals.  Sets of names are embedded as
deduplicated lists compared up to membership. -/
def signal_names (signals : List Signal) : List String :=
  (signals.map Signal.name).dedup

/-- The classification computed by `get_equation_io`: inputs, states, outputs
and selector bits (the tuple returned at model.py line 164). -/
structure EqnIo where
  inputs : List Signal
  states : List Signal
  outputs : List Signal
  sel_bits : List Signal

/-- `all_signal_names` (model.py line 144): the set of names referenced by the
system. -/
def allSignalNames (eqn_sys : EqnSys) : List String :=
  signal_names eqn_sys.get_all_signals

/-- `input_names` (model.py line 147):
`(signal_names(self.get_analog_inputs()) | self.assignments.keys()) &
all_signal_names` — only *analog* declared inputs, and the keys of *every*
existing assignment whatever its timing kind. -/
def inputNames (m : Model) (eqn_sys : EqnSys) : List String :=
  ((signal_names (get_analog_inputs m)) ++ assignmentKeys m).dedup.filter
    (fun n => decide (n ∈ allSignalNames eqn_sys))

/-- `state_names` (model.py line 151). -/
def stateNames (eqn_sys : EqnSys) : List String :=
  signal_names eqn_sys.get_states

/-- `deriv_names` (model.py line 152). -/
def derivNames (eqn_sys : EqnSys) : List String :=
  signal_names eqn_sys.get_derivs

/-- `output_names` (model.py line 156):
`(all_signal_names - input_names - state_names - deriv_names) &
self.signals.keys()` — referenced names not classified as inputs or states,
*intersected with the catalog's keys*. -/
def outputNames (m : Model) (eqn_sys : EqnSys) : List String :=
  ((allSignalNames eqn_sys).filter (fun n =>
    decide (n ∉ inputNames m eqn_sys) && decide (n ∉ stateNames eqn_sys) &&
      decide (n ∉ derivNames eqn_sys))).filter (fun n => has_signal m n)

/-- `sel_bit_names` (model.py line 160). -/
def selBitNames (eqn_sys : EqnSys) : List String :=
  signal_names eqn_sys.get_sel_bits

/-- `get_equation_io` (model.py lines 142–164): resolve the four name sets
against the catalog (`get_signals` raises a declaration error for any name
without a catalog entry) and return the classification.  Set operations on
Python sets are embedded as deduplicated-list operations. -/
def get_equation_io (m : Model) (eqn_sys : EqnSys) : Except String EqnIo := do
  let inputs ← get_signals m (inputNames m eqn_sys)
  let states ← get_signals m (stateNames eqn_sys)
  let outputs ← get_signals m (outputNames m eqn_sys)
  let sel_bits ← get_signals m (selBitNames eqn_sys)
  pure ⟨inputs, states, outputs, sel_bits⟩

/-- `add_eqn_sys` (model.py lines 166–211).  Line 171 builds `EqnSys(eqns)`
(a plain constructor).  Line 174 then evaluates `self.get_eqn_io`:
`MixedSignalModel` defines no attribute of that name (the analyzer method is
called `get_equation_io`), so Python attribute lookup falls through to
`__getattr__` (model.py lines 36–37), which evaluates
`self.get_signal('get_eqn_io')`.  For any model that lacks a *signal* named
`get_eqn_io` this raises the `get_signal` assertion; if such a signal did
exist, the subsequent call `self.get_eqn_io(eqn_sys)` would raise a
`TypeError` because a `Signal` is not callable.  Either way the method raises
before any analysis, case expansion, extraction or discretization
(`self.discretize_lds` at line 199 is likewise undefined on the class). -/
def add_eqn_sys (m : Model) (eqns : List Expr) : Except String Model :=
  let _eqn_sys : EqnSys := ⟨eqns⟩
  match get_signal m "get_eqn_io" with
  | .error e => .error e
  | .ok _ => .error "TypeError: 'Signal' object is not callable"

/-! ## LDS collection and model assembler -/

/-- Modelled from the spec: one linear dynamical system (§3): matrices A
(state×state), B (state×input), C (output×state), D (output×input), embedded
as row lists of rationals (`msdsl.eqn.lds`, not under src/). -/
structure Lds where
  A : List (List ℚ)
  B : List (List ℚ)
  C : List (List ℚ)
  D : List (List ℚ)

/-- Modelled from the spec: `LdsCollection` (`msdsl.eqn.lds`, not under src/):
an ordered list of LDS entries, index = selector-bit address (§3). -/
abbrev LdsCollection := List Lds

/-- The matrix entry `M[row][col]`, 0 outside the matrix's bounds (the claims
only instantiate it within bounds). -/
def matEntry (M : List (List ℚ)) (row col : Nat) : ℚ :=
  ((M.getD row []).getD col 0)

/-- Modelled from the spec: `collection.A[row, col]` — the per-address list of
`A[row][col]` coefficients across the collection, as constant expressions
(§4.5's address-indexed coefficient array). -/
def collA (coll : LdsCollection) (row col : Nat) : List Expr :=
  coll.map (fun lds => .const (matEntry lds.A row col))

/-- Modelled from the spec: `collection.B[row, col]`. -/
def collB (coll : LdsCollection) (row col : Nat) : List Expr :=
  coll.map (fun lds => .const (matEntry lds.B row col))

/-- Modelled from the spec: `collection.C[row, col]`. -/
def collC (coll : LdsCollection) (row col : Nat) : List Expr :=
  coll.map (fun lds => .const (matEntry lds.C row col))

/-- Modelled from the spec: `collection.D[row, col]`. -/
def collD (coll : LdsCollection) (row col : Nat) : List Expr :=
  coll.map (fun lds => .const (matEntry lds.D row col))

/-- Modelled from the spec: `sum_op` (`msdsl.expr.expr`, not under src/):
builds the Sum variant over its operands (§3). -/
def sum_op (operands : List Expr) : Expr := .sum operands

/-- Modelled from the spec: `ModelExpr.__mul__`: builds the Product variant of
the two factors (§3). -/
def mul_op (a b : Expr) : Expr := .product [a, b]

/-- Modelled from the spec: `ModelExpr.__add__`, used by `expr += ...`:
builds the Sum variant of the two addends (§3). -/
def add_op (a b : Expr) : Expr := .sum [a, b]

/-- The state-row expression of `add_discrete_time_lds` (model.py lines
222–223): `sum_op([Array(A[row,col], sel) * states[col] ...]) +
sum_op([Array(B[row,col], sel) * inputs[col] ...])`. -/
def stateRowExpr (coll : LdsCollection) (inputs states : List Signal)
    (sel : Option Expr) (row : Nat) : Expr :=
  add_op
    (sum_op (states.enum.map
      (fun p => mul_op (.array (collA coll row p.1) sel) (.sig p.2))))
    (sum_op (inputs.enum.map
      (fun p => mul_op (.array (collB coll row p.1) sel) (.sig p.2))))

/-- The output-row expression of `add_discrete_time_lds` (model.py lines
228–229), using C and D. -/
def outputRowExpr (coll : LdsCollection) (inputs states : List Signal)
    (sel : Option Expr) (row : Nat) : Expr :=
  add_op
    (sum_op (states.enum.map
      (fun p => mul_op (.array (collC coll row p.1) sel) (.sig p.2))))
    (sum_op (inputs.enum.map
      (fun p => mul_op (.array (collD coll row p.1) sel) (.sig p.2))))

/-- `add_discrete_time_lds` (model.py lines 213–236): for each state row, a
next-cycle assignment of the A/B row expression; then for each output row, the
C/D row expression is assigned this-cycle when the output's name is already in
the signal catalog and is bound to a fresh signal via `bind_name` otherwise.
There is no combining of an existing assignment: `set_this_cycle` goes through
`add_assignment`, which asserts that the name is unassigned. -/
def add_discrete_time_lds (m : Model) (coll : LdsCollection)
    (inputs states outputs : List Signal) (sel : Option Expr) :
    Except String Model := do
  let m ← states.enum.foldlM
    (fun m p => set_next_cycle m p.2 (stateRowExpr coll inputs states sel p.1))
    m
  outputs.enum.foldlM
    (fun m p =>
      let expr := outputRowExpr coll inputs states sel p.1
      if has_signal m p.2.name then
        set_this_cycle m p.2 expr
      else
        bind_name m p.2.name expr)
    m

/-! ## Concrete signals, models and equation systems used by the claims -/

/-- The analog input `x` of the end-to-end example (`AnalogInput('x')`). -/
def xIn : Signal := ⟨"x", .analogInput, .real⟩

/-- A declared one-bit unsigned digital input `d` (`DigitalInput('d')`). -/
def dIn : Signal := ⟨"d", .digitalInput, .uint 1⟩

/-- The analog state `z` of the end-to-end example (`AnalogState('z', ...)`). -/
def zSt : Signal := ⟨"z", .analogState, .real⟩

/-- A plain analog signal `t` (`AnalogSignal('t')`). -/
def tPlain : Signal := ⟨"t", .analogPlain, .real⟩

/-- A plain one-bit unsigned digital signal `s` (`DigitalSignal('s')`),
usable as a Case selector. -/
def sSel : Signal := ⟨"s", .digitalPlain, .uint 1⟩

/-- A second selector-style signal `u`. -/
def uSel : Signal := ⟨"u", .digitalPlain, .uint 1⟩

/-- An undeclared plain analog signal `y` (`AnalogSignal('y')`), never added
to any model's catalog. -/
def yPlain : Signal := ⟨"y", .analogPlain, .real⟩

/-- The equation `derivative(z) = x - z` of the end-to-end example, written as
`Deriv(z) == x + (-1) * z`. -/
def c1eqn : Expr :=
  .equalTo (.deriv zSt) (.sum [.sig xIn, .product [.const (-1), .sig zSt]])

/-- The end-to-end model of C1: `MixedSignalModel('test', AnalogInput('x'),
dt=1)` with the analog state `z` added; no assignments yet. -/
def c1model : Model := ⟨"test", some 1, [xIn, zSt], []⟩

mutual

/-- No Case node is reachable through `Sum`, `Product` and `EqualTo` nodes —
exactly the nodes `subst_case` traverses. -/
def caseFree (e : Expr) : Bool :=
  match e with
  | .eqnCase _ _ => false
  | .equalTo lhs rhs => caseFree lhs && caseFree rhs
  | .sum operands => caseFreeList operands
  | .product operands => caseFreeList operands
  | _ => true

/-- Elementwise `caseFree`. -/
def caseFreeList (l : List Expr) : Bool :=
  match l with
  | [] => true
  | x :: xs => caseFree x && caseFreeList xs

end

mutual

/-- The settings cover the expression: every Case node reachable by
`subst_case` (through `Sum`/`Product`/`EqualTo` and through selected
branches) declares `2^k` cases for its `k` selectors, and each of its
selectors has an entry in the settings dictionary. -/
def covered (e : Expr) (d : Dict) : Bool :=
  match e with
  | .eqnCase cases sel_bits =>
    (cases.length == 2 ^ sel_bits.length) &&
      sel_bits.all (fun sb => (dictGet d sb.name).isSome) &&
      coveredList cases d
  | .equalTo lhs rhs => covered lhs d && covered rhs d
  | .sum operands => coveredList operands d
  | .product operands => coveredList operands d
  | _ => true

/-- Elementwise `covered`. -/
def coveredList (l : List Expr) (d : Dict) : Bool :=
  match l with
  | [] => true
  | x :: xs => covered x d && coveredList xs d

end

/-- A nested case-of-case expression over selectors `s` (outer) and `u`
(inner), summed with a signal reference. -/
def c6expr : Expr :=
  .sum [.eqnCase [.const 1, .eqnCase [.const 2, .const 3] [uSel]] [sSel],
        .sig xIn]

/-- Settings `s ↦ 1`, `u ↦ 0` for the C6 witness. -/
def c6dict : Dict := [("s", 1), ("u", 0)]

/-- The names bound by an existing *Binding* assignment. -/
def bindingKeys (m : Model) : List String :=
  (m.assignments.filter (fun a => a.timing == Timing.binding)).map
    (fun a => a.signal.name)

/-- Follows the spec's words (§4.2), for comparison with the code's
`inputNames`: "**inputs** = (declared analog/digital inputs ∪ signals already
bound by a prior Binding assignment) ∩ referenced signals". -/
def specInputNames (m : Model) (eqn_sys : EqnSys) : List String :=
  ((signal_names (get_analog_inputs m) ++ signal_names (get_digital_inputs m) ++
      bindingKeys m).dedup).filter
    (fun n => decide (n ∈ allSignalNames eqn_sys))

/-- The C2 model: analog input `x`, digital input `d`, analog state `z`, and
a plain analog signal `t` carrying a ThisCycle (non-Binding) assignment. -/
def c2model : Model :=
  ⟨"m2", some 1, [xIn, dIn, zSt, tPlain], [⟨tPlain, .const 2, .thisCycle⟩]⟩

/-- The C2 equation system: `derivative(z) = x + d + t + (-1)·z`, referencing
`x`, `d`, `t` and `z`. -/
def c2sys : EqnSys :=
  ⟨[.equalTo (.deriv zSt)
      (.sum [.sig xIn, .sig dIn, .sig tPlain, .product [.const (-1), .sig zSt]])]⟩

/-- The classification the code computes for the C2 model and system. -/
def c2io : EqnIo := ⟨[xIn, tPlain], [zSt], [dIn], []⟩

/-- The C7 model: analog input `x` and analog state `z`; `y` is never
declared. -/
def c7model : Model := ⟨"m7", some 1, [xIn, zSt], []⟩

/-- The C7 equation system: `derivative(z) = x + y`, referencing the
undeclared `y`. -/
def c7sys : EqnSys := ⟨[.equalTo (.deriv zSt) (.sum [.sig xIn, .sig yPlain])]⟩

/-- The classification the code computes for the C7 model and system: `y`
appears nowhere. -/
def c7io : EqnIo := ⟨[xIn], [zSt], [], []⟩

/-- The signal created by `bind_name('w', ...)`: a plain `Signal` holding the
bound expression's value. -/
def wBound : Signal := ⟨"w", .base, .real⟩

/-- The C5 model: `w` was bound earlier via `bind_name` (it is in the catalog
and carries a Binding assignment). -/
def c5model : Model := ⟨"m5", some 1, [wBound], [⟨wBound, .const 1, .binding⟩]⟩

/-- A concrete next-cycle assignment for `z`, used by the C10 witness. -/
def zAssign : Assignment := ⟨zSt, .const 0, .nextCycle⟩


/-- C1.  The spec's end-to-end example claims that `add_eqn_sys` on the model
`{analog input x, analog state z, dt=1}` with the single equation
`derivative(z) = x - z` produces one next-cycle assignment for `z` with
coefficients `e⁻¹` and `1 - e⁻¹`.  The code instead raises before any
analysis: `add_eqn_sys` evaluates the undefined attribute `self.get_eqn_io`
(the analyzer is named `get_equation_io`), which `__getattr__` (model.py
lines 36–37) turns into `get_signal('get_eqn_io')`, raising the assertion
`'The signal get_eqn_io has not been defined.'`. -/
theorem c1_add_eqn_sys_raises_on_end_to_end_example :
    add_eqn_sys c1model [c1eqn] =
      .error "The signal get_eqn_io has not been defined." := by
  rfl

/-- C4.  The claim says `add_eqn_sys` builds an `LdsCollection` with exactly
`2^k` entries in increasing address order.  The code never reaches the
collection loop: for *every* model and equation list, `add_eqn_sys` raises at
model.py line 174 — either the `get_signal('get_eqn_io')` assertion produced
by `__getattr__`, or (when a signal named `get_eqn_io` happens to exist) a
`TypeError` for calling a non-callable `Signal` — so no collection is ever
constructed. -/
theorem c4_add_eqn_sys_never_builds_a_collection (m : Model) (eqns : List Expr) :
    (add_eqn_sys m eqns).isOk = false := by
  unfold add_eqn_sys
  cases h : get_signal m "get_eqn_io" <;> simp [Except.isOk, Except.toBool]

/-- C8.  `eqn_case` fails whenever the case-list length differs from
`2^(number of selector bits)`, whenever some selector is not a one-bit
unsigned digital signal, or whenever the case list is empty (an empty list
also has length `0 ≠ 2^k`). -/
theorem c8_eqn_case_shape_errors (cases : List Expr) (sel_bits : List Signal)
    (h : cases.length ≠ 2 ^ sel_bits.length ∨
      ¬ sel_bits.all isOneBitUnsignedDigital ∨ cases = []) :
    ∃ msg, eqn_case cases sel_bits = .error msg := by
  unfold eqn_case promote_operands wrap_constants
  by_cases hs : sel_bits.all isOneBitUnsignedDigital
  · rw [if_neg (by simpa using hs)]
    have hlen : cases.length ≠ 2 ^ sel_bits.length := by
      rcases h with h | h | h
      · exact h
      · exact absurd hs h
      · subst h
        simp
        positivity
    rw [if_pos hlen]
    exact ⟨_, rfl⟩
  · rw [if_pos (by simpa using hs)]
    exact ⟨_, rfl⟩

/-- Witness for C8: three literal cases with one selector bit are rejected
(3 ≠ 2^1). -/
theorem c8_eqn_case_shape_errors_witness :
    ∃ msg, eqn_case [.const 1, .const 2, .const 3] [sSel] = .error msg :=
  c8_eqn_case_shape_errors [.const 1, .const 2, .const 3] [sSel]
    (.inl (by decide))

/-- C9.  `eqn_case([v], [])` — zero selector bits — passes the selector check
vacuously and the length check (`1 = 2^0`), and returns the (promoted) sole
case itself, with no `EqnCase` wrapper around it.  In this embedding
promotion preserves the expression (`promote_operands` is modelled from the
spec as the identity), so the result is exactly `v`. -/
theorem c9_eqn_case_singleton_collapses (v : Expr) :
    eqn_case [v] [] = .ok v := by
  rfl

/-- C10.  `add_assignment` checks before it writes: when the target name is
already assigned it fails (and, the embedding being a pure state
transformer, no model with a modified assignment map is produced); otherwise
it appends exactly one entry keyed by the signal's name, and the lookup of
every other name is unchanged. -/
theorem c10_add_assignment_atomic (m : Model) (a : Assignment) (n : String)
    (hn : n ≠ a.signal.name) :
    (has_assignment m a.signal.name = true →
      add_assignment m a =
        .error ("The signal " ++ a.signal.name ++ " has already been assigned.")) ∧
    (has_assignment m a.signal.name = false →
      add_assignment m a = .ok { m with assignments := m.assignments ++ [a] } ∧
      (m.assignments ++ [a]).find? (fun b => b.signal.name == n) =
        m.assignments.find? (fun b => b.signal.name == n)) := by
  constructor
  · intro h
    simp [add_assignment, h]
  · intro h
    refine ⟨by simp [add_assignment, h], ?_⟩
    rw [List.find?_append]
    have hb : (a.signal.name == n) = false :=
      beq_eq_false_iff_ne.mpr (fun hc => hn hc.symm)
    have : [a].find? (fun b => b.signal.name == n) = none := by
      simp [List.find?, hb]
    simp [this]

/-! ## C3: the address round trip -/

/-- Writing one more entry into a settings dictionary: the lookup of the new
key sees the new value, every other lookup is unchanged. -/
theorem dictGet_append_single (d : Dict) (p : String × Nat) (k : String) :
    dictGet (d ++ [p]) k = if p.1 = k then some p.2 else dictGet d k := by
  by_cases h : p.1 = k <;>
    simp [dictGet, List.reverse_append, List.find?_cons, h]

/-- Bits below position `m` are unchanged by reduction mod `2^m`. -/
theorem shiftRight_and_one_mod_two_pow {a m i : Nat} (h : i < m) :
    (a % 2 ^ m) >>> i &&& 1 = (a >>> i) &&& 1 := by
  simp only [Nat.shiftRight_eq_div_pow, Nat.and_one_is_mod]
  have h1 : (a % 2 ^ m).testBit i = a.testBit i := by
    rw [Nat.testBit_mod_two_pow]
    simp [h]
  simp only [Nat.testBit_to_div_mod] at h1
  have ha : a / 2 ^ i % 2 < 2 := Nat.mod_lt _ (by norm_num)
  have hb : (a % 2 ^ m) / 2 ^ i % 2 < 2 := Nat.mod_lt _ (by norm_num)
  by_cases hx : a / 2 ^ i % 2 = 1 <;> by_cases hy : (a % 2 ^ m) / 2 ^ i % 2 = 1 <;>
    simp [hx, hy] at h1 ⊢ <;> try omega

/-- Peeling the first selector off the settings dictionary: the dictionary for
`sb :: rest` is the dictionary for `rest` at address `a mod 2^|rest|`,
followed by the entry binding `sb` to bit `|rest|` of `a` — the most
significant bit of the address. -/
theorem settingsEntries_cons (a : Nat) (sb : Signal) (rest : List Signal) :
    settingsEntries a (sb :: rest) =
      settingsEntries (a % 2 ^ rest.length) rest ++
        [(sb.name, (a >>> rest.length) &&& 1)] := by
  unfold settingsEntries
  rw [List.reverse_cons, List.enum_append, List.map_append]
  congr 1
  · refine List.map_eq_map_iff.mpr (fun p hp => ?_)
    have hlt : p.1 < rest.length := by
      simpa using List.fst_lt_of_mem_enum hp
    simp [shiftRight_and_one_mod_two_pow hlt]
  · simp [List.enumFrom]

/-- Reducing a successful `Except` bind. -/
theorem ok_bind {α β : Type} (x : α) (f : α → Except String β) :
    (Except.ok x >>= f) = f x := rfl

/-- Reducing a failed `Except` bind. -/
theorem error_bind {α β : Type} (e : String) (f : α → Except String β) :
    ((Except.error e : Except String α) >>= f) = .error e := rfl

/-- `get_address`'s fold depends only on the lookups of the selectors'
names. -/
theorem foldlM_gaStep_congr (sels : List Signal) (d1 d2 : Dict)
    (h : ∀ sb ∈ sels, dictGet d1 sb.name = dictGet d2 sb.name) (acc : Nat) :
    sels.foldlM (gaStep d1) acc = sels.foldlM (gaStep d2) acc := by
  induction sels generalizing acc with
  | nil => rfl
  | cons sb rest ih =>
    have hstep : gaStep d1 acc sb = gaStep d2 acc sb := by
      unfold gaStep
      rw [h sb (by simp)]
    simp only [List.foldlM_cons, hstep]
    cases hg : gaStep d2 acc sb with
    | error e => rw [error_bind, error_bind]
    | ok v =>
      rw [ok_bind, ok_bind]
      exact ih (fun sb' hm => h sb' (by simp [hm])) v

/-- The generalized round trip: folding `get_address`'s step over the
dictionary built by `address_to_settings` recovers the address below the
accumulated prefix. -/
theorem gaStep_fold_settingsEntries (sels : List Signal) :
    ∀ (a acc : Nat), (sels.map Signal.name).Nodup → a < 2 ^ sels.length →
      sels.foldlM (gaStep (settingsEntries a sels)) acc =
        .ok (acc * 2 ^ sels.length + a) := by
  induction sels with
  | nil =>
    intro a acc _ ha
    simp only [List.length_nil, pow_zero] at ha
    interval_cases a
    simp only [List.foldlM_nil, pow_zero]
    show Except.ok acc = _
    norm_num
  | cons sb rest ih =>
    intro a acc hnd ha
    rw [List.map_cons, List.nodup_cons] at hnd
    obtain ⟨hno, hndr⟩ := hnd
    have hm : a % 2 ^ rest.length < 2 ^ rest.length :=
      Nat.mod_lt _ (Nat.pos_pow_of_pos _ (by norm_num))
    have hbit : (a >>> rest.length) &&& 1 ≤ 1 := by
      rw [Nat.and_one_is_mod]
      omega
    rw [settingsEntries_cons]
    simp only [List.foldlM_cons]
    have hstep :
        gaStep (settingsEntries (a % 2 ^ rest.length) rest ++
            [(sb.name, (a >>> rest.length) &&& 1)]) acc sb =
          .ok (acc * 2 + ((a >>> rest.length) &&& 1)) := by
      unfold gaStep
      rw [dictGet_append_single]
      simp only [if_pos rfl]
      by_cases hf : (a >>> rest.length) &&& 1 = 0
      · simp [hf]
      · have hf1 : (a >>> rest.length) &&& 1 = 1 := by omega
        simp [hf, hf1]
    rw [hstep, ok_bind]
    have hcongr :
        rest.foldlM (gaStep (settingsEntries (a % 2 ^ rest.length) rest ++
            [(sb.name, (a >>> rest.length) &&& 1)]))
            (acc * 2 + ((a >>> rest.length) &&& 1)) =
          rest.foldlM (gaStep (settingsEntries (a % 2 ^ rest.length) rest))
            (acc * 2 + ((a >>> rest.length) &&& 1)) := by
      refine foldlM_gaStep_congr _ _ _ (fun sb' hm' => ?_) _
      rw [dictGet_append_single]
      have hne : sb.name ≠ sb'.name := by
        intro hc
        exact hno (hc ▸ List.mem_map_of_mem Signal.name hm')
      simp [hne]
    rw [hcongr, ih (a % 2 ^ rest.length) _ hndr hm]
    have hq2 : a / 2 ^ rest.length < 2 := by
      have h2 : (2:Nat) ^ (sb :: rest).length = 2 ^ rest.length * 2 := by
        simp [List.length_cons, pow_succ]
      rw [h2] at ha
      exact Nat.div_lt_of_lt_mul (by omega)
    have hsh : (a >>> rest.length) &&& 1 = a / 2 ^ rest.length := by
      rw [Nat.shiftRight_eq_div_pow, Nat.and_one_is_mod, Nat.mod_eq_of_lt hq2]
    rw [hsh]
    refine congrArg Except.ok ?_
    have hdm : 2 ^ rest.length * (a / 2 ^ rest.length) + a % 2 ^ rest.length = a :=
      Nat.div_add_mod a _
    calc (acc * 2 + a / 2 ^ rest.length) * 2 ^ rest.length + a % 2 ^ rest.length
        = acc * (2 ^ rest.length * 2) +
            (2 ^ rest.length * (a / 2 ^ rest.length) + a % 2 ^ rest.length) := by
          ring
      _ = acc * 2 ^ (sb :: rest).length + a := by
          rw [hdm, List.length_cons, pow_succ]

/-- C3.  The round trip: for distinct selector names and an address in range,
`address_to_settings` succeeds with the dictionary `settingsEntries a
sel_bits`, applying a Case node's `get_address` (declaring exactly those
selectors in the same order) to that dictionary recovers `a`, and when the
selector list is nonempty its first selector is bound to the most significant
bit of the address (bit `|rest|` of `a`). -/
theorem c3_address_to_settings_roundtrip (sel_bits : List Signal) (a : Nat)
    (hnd : (sel_bits.map Signal.name).Nodup) (ha : a < 2 ^ sel_bits.length) :
    address_to_settings a sel_bits = .ok (settingsEntries a sel_bits) ∧
    get_address sel_bits (settingsEntries a sel_bits) = .ok a ∧
    ∀ sb rest, sel_bits = sb :: rest →
      dictGet (settingsEntries a sel_bits) sb.name =
        some ((a >>> rest.length) &&& 1) := by
  have hpos : 0 < 2 ^ sel_bits.length := Nat.pos_pow_of_pos _ (by norm_num)
  refine ⟨?_, ?_, ?_⟩
  · unfold address_to_settings
    rw [if_pos (by omega)]
  · unfold get_address
    rw [gaStep_fold_settingsEntries sel_bits a 0 hnd ha]
    simp
  · intro sb rest heq
    subst heq
    rw [settingsEntries_cons, dictGet_append_single]
    simp

/-- Witness for C3: two selectors `s`, `u` and address 2 (`s` is the most
significant bit, so `s ↦ 1`, `u ↦ 0`, and `get_address` recovers 2). -/
theorem c3_address_to_settings_roundtrip_witness :
    address_to_settings 2 [sSel, uSel] = .ok (settingsEntries 2 [sSel, uSel]) ∧
    get_address [sSel, uSel] (settingsEntries 2 [sSel, uSel]) = .ok 2 ∧
    ∀ sb rest, [sSel, uSel] = sb :: rest →
      dictGet (settingsEntries 2 [sSel, uSel]) sb.name =
        some ((2 >>> rest.length) &&& 1) :=
  c3_address_to_settings_roundtrip [sSel, uSel] 2 (by decide) (by decide)

/-! ## C6: structural idempotence of `subst_case` -/

/-- A successful `get_address` fold is bounded by `(acc+1)·2^n - 1`. -/
theorem gaStep_fold_lt (sels : List Signal) (d : Dict) :
    ∀ (acc r : Nat), sels.foldlM (gaStep d) acc = .ok r →
      r < (acc + 1) * 2 ^ sels.length := by
  induction sels with
  | nil =>
    intro acc r h
    simp only [List.foldlM_nil] at h
    cases h
    simp
  | cons sb rest ih =>
    intro acc r h
    simp only [List.foldlM_cons] at h
    cases hg : gaStep d acc sb with
    | error e => rw [hg, error_bind] at h; cases h
    | ok v =>
      rw [hg, ok_bind] at h
      have hb : v ≤ acc * 2 + 1 := by
        unfold gaStep at hg
        cases hd : dictGet d sb.name with
        | none => rw [hd] at hg; cases hg
        | some w =>
          rw [hd] at hg
          simp only [Except.ok.injEq] at hg
          subst hg
          split <;> omega
      have hrec := ih v r h
      have h2 : (v + 1) * 2 ^ rest.length ≤ (acc + 1) * 2 ^ (sb :: rest).length := by
        simp only [List.length_cons, pow_succ]
        nlinarith [Nat.pos_pow_of_pos rest.length (show 0 < 2 by norm_num)]
      omega

/-- `get_address` succeeds with an in-range address. -/
theorem get_address_lt (sels : List Signal) (d : Dict) (a : Nat)
    (h : get_address sels d = .ok a) : a < 2 ^ sels.length := by
  have := gaStep_fold_lt sels d 0 a h
  simpa using this

/-- When every selector has an entry, the `get_address` fold succeeds. -/
theorem gaStep_fold_isOk (sels : List Signal) (d : Dict)
    (h : sels.all (fun sb => (dictGet d sb.name).isSome)) :
    ∀ acc, ∃ r, sels.foldlM (gaStep d) acc = .ok r := by
  induction sels with
  | nil => intro acc; exact ⟨acc, rfl⟩
  | cons sb rest ih =>
    intro acc
    simp only [List.all_cons, Bool.and_eq_true] at h
    obtain ⟨hsb, hrest⟩ := h
    cases hd : dictGet d sb.name with
    | none => rw [hd] at hsb; cases hsb
    | some v =>
      obtain ⟨r, hr⟩ := ih (by simpa using hrest) (acc * 2 + (if v ≠ 0 then 1 else 0))
      refine ⟨r, ?_⟩
      simp only [List.foldlM_cons]
      have hg : gaStep d acc sb = .ok (acc * 2 + (if v ≠ 0 then 1 else 0)) := by
        unfold gaStep
        rw [hd]
      rw [hg, ok_bind, hr]

/-- `coveredList` gives `covered` for each element. -/
theorem coveredList_mem {l : List Expr} {d : Dict}
    (h : coveredList l d = true) : ∀ x ∈ l, covered x d = true := by
  induction l with
  | nil => intro x hx; cases hx
  | cons y ys ih =>
    intro x hx
    unfold coveredList at h
    rw [Bool.and_eq_true] at h
    cases hx with
    | head => exact h.1
    | tail _ hmem => exact ih h.2 x hmem

/-- One pass of `subst_case` is enough: applying it again to a successful
result is the identity (both for expressions and operand lists). -/
theorem subst_case_idem_aux (n : Nat) :
    (∀ e : Expr, sizeOf e ≤ n → ∀ (d : Dict) (r : Expr),
      subst_case e d = .ok r → subst_case r d = .ok r) ∧
    (∀ l : List Expr, sizeOf l ≤ n → ∀ (d : Dict) (r : List Expr),
      subst_case_list l d = .ok r → subst_case_list r d = .ok r) := by
  induction n using Nat.strong_induction_on with
  | _ n ih =>
    constructor
    · intro e hsize d r h
      cases e with
      | eqnCase cases sel_bits =>
        simp only [subst_case] at h
        simp only [Expr.eqnCase.sizeOf_spec] at hsize
        split at h
        · exact Except.noConfusion h
        · rename_i addr heq
          split at h
          · rename_i hlt
            have hel := List.sizeOf_lt_of_mem (cases.get_mem addr hlt)
            exact (ih (n - 1) (by omega)).1 _ (by omega) d r h
          · exact Except.noConfusion h
      | equalTo lhs rhs =>
        simp only [subst_case] at h
        simp only [Expr.equalTo.sizeOf_spec] at hsize
        split at h
        · exact Except.noConfusion h
        · rename_i lhs' hl
          split at h
          · exact Except.noConfusion h
          · rename_i rhs' hr
            cases h
            have h1 := (ih (n - 1) (by omega)).1 lhs (by omega) d lhs' hl
            have h2 := (ih (n - 1) (by omega)).1 rhs (by omega) d rhs' hr
            simp only [subst_case, h1, h2]
      | sum operands =>
        simp only [subst_case] at h
        simp only [Expr.sum.sizeOf_spec] at hsize
        split at h
        · exact Except.noConfusion h
        · rename_i operands' ho
          cases h
          have h1 := (ih (n - 1) (by omega)).2 operands (by omega) d operands' ho
          simp only [subst_case, h1]
      | product operands =>
        simp only [subst_case] at h
        simp only [Expr.product.sizeOf_spec] at hsize
        split at h
        · exact Except.noConfusion h
        · rename_i operands' ho
          cases h
          have h1 := (ih (n - 1) (by omega)).2 operands (by omega) d operands' ho
          simp only [subst_case, h1]
      | const v =>
        simp only [subst_case] at h
        cases h
        simp only [subst_case]
      | sig s =>
        simp only [subst_case] at h
        cases h
        simp only [subst_case]
      | concat signals =>
        simp only [subst_case] at h
        cases h
        simp only [subst_case]
      | array values sel =>
        simp only [subst_case] at h
        cases h
        simp only [subst_case]
      | deriv s =>
        simp only [subst_case] at h
        cases h
        simp only [subst_case]
    · intro l hsize d r h
      cases l with
      | nil =>
        simp only [subst_case_list] at h
        cases h
        simp only [subst_case_list]
      | cons x xs =>
        simp only [subst_case_list] at h
        simp only [List.cons.sizeOf_spec] at hsize
        split at h
        · exact Except.noConfusion h
        · rename_i x' hx
          split at h
          · exact Except.noConfusion h
          · rename_i xs' hxs
            cases h
            have h1 := (ih (n - 1) (by omega)).1 x (by omega) d x' hx
            have h2 := (ih (n - 1) (by omega)).2 xs (by omega) d xs' hxs
            simp only [subst_case_list, h1, h2]

/-- Under covering settings, one pass of `subst_case` succeeds and removes
every Case node reachable through `Sum`, `Product` and `EqualTo`. -/
theorem subst_case_removes_cases_aux (n : Nat) :
    (∀ e : Expr, sizeOf e ≤ n → ∀ d : Dict, covered e d = true →
      ∃ r, subst_case e d = .ok r ∧ caseFree r = true) ∧
    (∀ l : List Expr, sizeOf l ≤ n → ∀ d : Dict, coveredList l d = true →
      ∃ r, subst_case_list l d = .ok r ∧ caseFreeList r = true) := by
  induction n using Nat.strong_induction_on with
  | _ n ih =>
    constructor
    · intro e hsize d hwf
      cases e with
      | eqnCase cases sel_bits =>
        simp only [covered] at hwf
        rw [Bool.and_eq_true, Bool.and_eq_true] at hwf
        obtain ⟨⟨hlen, hcov⟩, hcl⟩ := hwf
        obtain ⟨a, ha⟩ := gaStep_fold_isOk sel_bits d hcov 0
        have ha' : get_address sel_bits d = .ok a := ha
        have halt : a < cases.length := by
          have hlt := get_address_lt sel_bits d a ha'
          have hlen' : cases.length = 2 ^ sel_bits.length := by
            simpa using hlen
          omega
        simp only [Expr.eqnCase.sizeOf_spec] at hsize
        have hel := List.sizeOf_lt_of_mem (cases.get_mem a halt)
        have hcovel : covered (cases.get ⟨a, halt⟩) d = true :=
          coveredList_mem hcl _ (cases.get_mem a halt)
        obtain ⟨r, hr, hcf⟩ := (ih (n - 1) (by omega)).1 _ (by omega) d hcovel
        refine ⟨r, ?_, hcf⟩
        simp only [subst_case, ha']
        rw [dif_pos halt]
        exact hr
      | equalTo lhs rhs =>
        simp only [covered] at hwf
        rw [Bool.and_eq_true] at hwf
        simp only [Expr.equalTo.sizeOf_spec] at hsize
        obtain ⟨l', hl, hcfl⟩ := (ih (n - 1) (by omega)).1 lhs (by omega) d hwf.1
        obtain ⟨r', hr, hcfr⟩ := (ih (n - 1) (by omega)).1 rhs (by omega) d hwf.2
        refine ⟨.equalTo l' r', ?_, ?_⟩
        · simp only [subst_case, hl, hr]
        · simp only [caseFree, Bool.and_eq_true]
          exact ⟨hcfl, hcfr⟩
      | sum operands =>
        simp only [covered] at hwf
        simp only [Expr.sum.sizeOf_spec] at hsize
        obtain ⟨r, hr, hcf⟩ := (ih (n - 1) (by omega)).2 operands (by omega) d hwf
        refine ⟨.sum r, ?_, ?_⟩
        · simp only [subst_case, hr]
        · simp only [caseFree]
          exact hcf
      | product operands =>
        simp only [covered] at hwf
        simp only [Expr.product.sizeOf_spec] at hsize
        obtain ⟨r, hr, hcf⟩ := (ih (n - 1) (by omega)).2 operands (by omega) d hwf
        refine ⟨.product r, ?_, ?_⟩
        · simp only [subst_case, hr]
        · simp only [caseFree]
          exact hcf
      | const v => exact ⟨.const v, by simp only [subst_case], rfl⟩
      | sig s => exact ⟨.sig s, by simp only [subst_case], rfl⟩
      | concat signals => exact ⟨.concat signals, by simp only [subst_case], rfl⟩
      | array values sel => exact ⟨.array values sel, by simp only [subst_case], rfl⟩
      | deriv s => exact ⟨.deriv s, by simp only [subst_case], rfl⟩
    · intro l hsize d hwf
      cases l with
      | nil => exact ⟨[], by simp only [subst_case_list], rfl⟩
      | cons x xs =>
        simp only [coveredList] at hwf
        rw [Bool.and_eq_true] at hwf
        simp only [List.cons.sizeOf_spec] at hsize
        obtain ⟨x', hx, hcfx⟩ := (ih (n - 1) (by omega)).1 x (by omega) d hwf.1
        obtain ⟨xs', hxs, hcfxs⟩ := (ih (n - 1) (by omega)).2 xs (by omega) d hwf.2
        refine ⟨x' :: xs', ?_, ?_⟩
        · simp only [subst_case_list, hx, hxs]
        · simp only [caseFreeList, Bool.and_eq_true]
          exact ⟨hcfx, hcfxs⟩

/-- C6.  `subst_case` is structurally idempotent: a second pass over any
successful result is the identity; and under settings covering every
reachable Case node (each well-shaped with `2^k` cases), one pass succeeds
and removes every Case node reachable through `Sum`, `Product` and `EqualTo`
nodes, so repeated substitution with the same settings is a no-op. -/
theorem c6_subst_case_structurally_idempotent (e : Expr) (d : Dict) :
    (∀ r, subst_case e d = .ok r → subst_case r d = .ok r) ∧
    (covered e d = true → ∃ r, subst_case e d = .ok r ∧ caseFree r = true) :=
  ⟨fun r h => (subst_case_idem_aux (sizeOf e)).1 e le_rfl d r h,
   fun hwf => (subst_case_removes_cases_aux (sizeOf e)).1 e le_rfl d hwf⟩


/-- Witness for C6: substituting the nested case expression with `s=1, u=0`
selects the inner case's branch 0; re-substituting the result is the
identity, and the covered pass yields a Case-free result. -/
theorem c6_subst_case_structurally_idempotent_witness :
    subst_case (.sum [.const 2, .sig xIn]) c6dict =
      .ok (.sum [.const 2, .sig xIn]) ∧
    (∃ r, subst_case c6expr c6dict = .ok r ∧ caseFree r = true) :=
  ⟨(c6_subst_case_structurally_idempotent c6expr c6dict).1
      (.sum [.const 2, .sig xIn])
      (by simp [c6expr, c6dict, subst_case, subst_case_list, get_address,
                gaStep, dictGet, sSel, uSel]),
   (c6_subst_case_structurally_idempotent c6expr c6dict).2 (by decide)⟩

/-! ## The analyzer's classification: helper lemmas -/

/-- A successful `get_signal` returns the catalog signal with that name. -/
theorem get_signal_ok {m : Model} {n : String} {s : Signal}
    (h : get_signal m n = .ok s) : s.name = n ∧ s ∈ m.signals := by
  unfold get_signal at h
  cases hf : m.signals.find? (fun s => s.name == n) with
  | none => rw [hf] at h; cases h
  | some s' =>
    rw [hf] at h
    cases h
    refine ⟨?_, List.mem_of_find?_eq_some hf⟩
    have := List.find?_some hf
    simpa using this

/-- A successful `get_signals` returns exactly the requested names, resolved
in the catalog. -/
theorem get_signals_ok {m : Model} {ns : List String} {sigs : List Signal}
    (h : get_signals m ns = .ok sigs) :
    sigs.map Signal.name = ns ∧ ∀ s ∈ sigs, s ∈ m.signals := by
  induction ns generalizing sigs with
  | nil =>
    simp only [get_signals, List.mapM_nil] at h
    have h' : Except.ok ([] : List Signal) = Except.ok sigs := h
    cases h'
    exact ⟨rfl, by intro s hs; cases hs⟩
  | cons n ns ih =>
    simp only [get_signals, List.mapM_cons] at h
    cases hx : get_signal m n with
    | error e => rw [hx, error_bind] at h; cases h
    | ok s =>
      rw [hx, ok_bind] at h
      cases hxs : ns.mapM (get_signal m) with
      | error e => rw [hxs, error_bind] at h; cases h
      | ok tl =>
        rw [hxs, ok_bind] at h
        have h' : Except.ok (s :: tl) = Except.ok sigs := h
        cases h'
        obtain ⟨h1, h2⟩ := get_signal_ok hx
        obtain ⟨h3, h4⟩ := ih hxs
        refine ⟨by simp [h1, h3], ?_⟩
        intro s' hs'
        cases hs' with
        | head => exact h2
        | tail _ hmem => exact h4 s' hmem

/-- `has_signal` decides membership of the name in the catalog. -/
theorem has_signal_iff {m : Model} {n : String} :
    has_signal m n = true ↔ ∃ s ∈ m.signals, s.name = n := by
  unfold has_signal
  simp [List.any_eq_true]

/-- A successful `get_equation_io` returns signal lists whose names are
exactly the four computed name sets, with the selector bits resolved in the
catalog. -/
theorem get_equation_io_ok_spec {m : Model} {eqn_sys : EqnSys} {io : EqnIo}
    (h : get_equation_io m eqn_sys = .ok io) :
    io.inputs.map Signal.name = inputNames m eqn_sys ∧
    io.states.map Signal.name = stateNames eqn_sys ∧
    io.outputs.map Signal.name = outputNames m eqn_sys ∧
    io.sel_bits.map Signal.name = selBitNames eqn_sys ∧
    (∀ s ∈ io.sel_bits, s ∈ m.signals) := by
  unfold get_equation_io at h
  cases h1 : get_signals m (inputNames m eqn_sys) with
  | error e => rw [h1, error_bind] at h; cases h
  | ok inputs =>
    rw [h1, ok_bind] at h
    cases h2 : get_signals m (stateNames eqn_sys) with
    | error e => rw [h2, error_bind] at h; cases h
    | ok states =>
      rw [h2, ok_bind] at h
      cases h3 : get_signals m (outputNames m eqn_sys) with
      | error e => rw [h3, error_bind] at h; cases h
      | ok outputs =>
        rw [h3, ok_bind] at h
        cases h4 : get_signals m (selBitNames eqn_sys) with
        | error e => rw [h4, error_bind] at h; cases h
        | ok sel_bits =>
          rw [h4, ok_bind] at h
          have h' : Except.ok (EqnIo.mk inputs states outputs sel_bits) =
              Except.ok io := h
          cases h'
          exact ⟨(get_signals_ok h1).1, (get_signals_ok h2).1,
            (get_signals_ok h3).1, (get_signals_ok h4).1, (get_signals_ok h4).2⟩

/-! ## C2: which signals the analyzer classifies as inputs -/


/-- Counterexample to C2: the computed input set is `{x, t}` — it *omits* the
referenced declared digital input `d` (classified as an output instead) and
*includes* `t`, whose only assignment is a non-Binding (ThisCycle) one; the
spec's formula yields `{x, d}`.  The two sets differ on both `d` and `t`. -/
theorem c2_counterexample :
    (get_equation_io c2model c2sys).map (fun io => io.inputs.map Signal.name) =
      .ok ["x", "t"] ∧
    specInputNames c2model c2sys = ["x", "d"] ∧
    ("d" ∈ (["x", "t"] : List String) ↔ False) ∧
    ("t" ∈ (["x", "d"] : List String) ↔ False) := by
  refine ⟨rfl, rfl, by simp, by simp⟩

/-- C2 (amended).  The computed input set equals the intersection of the
referenced names with the union of the declared *analog* inputs and the
names carrying *any* existing assignment, whatever its timing kind. -/
theorem c2_inputs_are_analog_or_assigned (m : Model) (eqn_sys : EqnSys)
    (io : EqnIo) (h : get_equation_io m eqn_sys = .ok io) (n : String) :
    n ∈ io.inputs.map Signal.name ↔
      ((n ∈ signal_names (get_analog_inputs m) ∨ n ∈ assignmentKeys m) ∧
        n ∈ allSignalNames eqn_sys) := by
  rw [(get_equation_io_ok_spec h).1]
  unfold inputNames
  simp [List.mem_filter, List.mem_dedup]

/-- Witness for C2 (amended) at the concrete C2 model: `t` is classified as
an input because it carries an assignment and is referenced. -/
theorem c2_inputs_are_analog_or_assigned_witness :
    "t" ∈ c2io.inputs.map Signal.name ↔
      (("t" ∈ signal_names (get_analog_inputs c2model) ∨
          "t" ∈ assignmentKeys c2model) ∧
        "t" ∈ allSignalNames c2sys) :=
  c2_inputs_are_analog_or_assigned c2model c2sys c2io (by rfl) "t"

/-! ## C7: undeclared referenced signals -/


/-- Counterexample to C7: the system references `y`, which is absent from the
catalog, yet the analysis *succeeds* (no declaration error) and silently
drops `y` from the classification. -/
theorem c7_counterexample :
    get_equation_io c7model c7sys = .ok c7io ∧
    "y" ∈ allSignalNames c7sys ∧
    has_signal c7model "y" = false := by
  refine ⟨rfl, by decide, rfl⟩

/-- C7 (amended).  A referenced name absent from the catalog raises a
declaration error only when it must be resolved as a state (a derivative
argument), a selector bit, or an assignment-keyed input; otherwise the
analysis succeeds and the name is silently dropped from all four returned
sets. -/
theorem c7_undeclared_refs_silently_dropped (m : Model) (eqn_sys : EqnSys)
    (io : EqnIo) (y : String) (h : get_equation_io m eqn_sys = .ok io)
    (hcat : has_signal m y = false)
    (hder : y ∉ derivNames eqn_sys)
    (hkey : y ∉ assignmentKeys m) :
    y ∉ io.inputs.map Signal.name ∧ y ∉ io.states.map Signal.name ∧
    y ∉ io.outputs.map Signal.name ∧ y ∉ io.sel_bits.map Signal.name := by
  obtain ⟨hi, hs, ho, hb, hbm⟩ := get_equation_io_ok_spec h
  have hnotsig : ∀ s ∈ m.signals, s.name ≠ y := by
    intro s hs' hc
    have : has_signal m y = true := has_signal_iff.mpr ⟨s, hs', hc⟩
    rw [hcat] at this
    cases this
  refine ⟨?_, ?_, ?_, ?_⟩
  · rw [hi]
    unfold inputNames
    intro hmem
    rw [List.mem_filter, List.mem_dedup, List.mem_append] at hmem
    rcases hmem.1 with hana | hkey'
    · unfold signal_names at hana
      rw [List.mem_dedup, List.mem_map] at hana
      obtain ⟨s, hs', hn⟩ := hana
      exact hnotsig s (List.mem_of_mem_filter hs') hn
    · exact hkey hkey'
  · rw [hs]
    intro hmem
    unfold stateNames at hmem
    unfold derivNames at hder
    exact hder hmem
  · rw [ho]
    unfold outputNames
    intro hmem
    rw [List.mem_filter] at hmem
    have : has_signal m y = true := hmem.2
    rw [hcat] at this
    cases this
  · intro hmem
    rw [List.mem_map] at hmem
    obtain ⟨s, hs', hn⟩ := hmem
    exact hnotsig s (hbm s hs') hn

/-- Witness for C7 (amended) at the concrete C7 model: `y` is dropped from
every returned set. -/
theorem c7_undeclared_refs_silently_dropped_witness :
    "y" ∉ c7io.inputs.map Signal.name ∧ "y" ∉ c7io.states.map Signal.name ∧
    "y" ∉ c7io.outputs.map Signal.name ∧
    "y" ∉ c7io.sel_bits.map Signal.name :=
  c7_undeclared_refs_silently_dropped c7model c7sys c7io "y" (by rfl) (by rfl)
    (by decide) (by decide)

/-! ## C5: outputs that already carry a Binding assignment -/


/-- Counterexample to C5: assembling an LDS output row for `w`, which already
carries a Binding assignment, does *not* merge the LDS term into the binding;
`set_this_cycle` goes through `add_assignment`, whose uniqueness assertion
raises — no combined single assignment exists. -/
theorem c5_counterexample :
    add_discrete_time_lds c5model [] [] [] [wBound] none =
      .error "The signal w has already been assigned." := by
  rfl

/-- C5 (amended).  When the target output signal exists in the catalog, the
assembler emits a this-cycle assignment for it; if that name already carries
any assignment (a Binding assignment included), the call fails with the
duplicate-assignment declaration error instead of combining. -/
theorem c5_existing_binding_raises (m : Model) (coll : LdsCollection)
    (w : Signal) (sel : Option Expr)
    (hsig : has_signal m w.name = true)
    (hassigned : has_assignment m w.name = true) :
    add_discrete_time_lds m coll [] [] [w] sel =
      .error ("The signal " ++ w.name ++ " has already been assigned.") := by
  unfold add_discrete_time_lds
  simp only [List.enum_nil, List.foldlM_nil, pure_bind]
  simp only [List.enum, List.enumFrom, List.foldlM_cons, List.foldlM_nil]
  rw [if_pos hsig]
  unfold set_this_cycle add_assignment
  rw [if_pos hassigned]
  rfl

/-- Witness for C5 (amended): a model with an extra untouched signal and a
one-entry collection; the assembly call for the bound `w` raises the
duplicate-assignment error. -/
theorem c5_existing_binding_raises_witness :
    add_discrete_time_lds
        ⟨"m5w", some 1, [wBound, xIn], [⟨wBound, .const 1, .binding⟩]⟩
        [⟨[[1]], [[1]], [[1]], [[1]]⟩] [] [] [wBound] (some (.concat [sSel])) =
      .error ("The signal " ++ wBound.name ++ " has already been assigned.") :=
  c5_existing_binding_raises
    ⟨"m5w", some 1, [wBound, xIn], [⟨wBound, .const 1, .binding⟩]⟩
    [⟨[[1]], [[1]], [[1]], [[1]]⟩] wBound (some (.concat [sSel])) (by rfl) (by rfl)


/-- Witness for C10: adding an assignment for the unassigned `z` to the C1
model appends exactly that entry and leaves the lookup of `x` unchanged. -/
theorem c10_add_assignment_atomic_witness :
    add_assignment c1model zAssign =
      .ok { c1model with assignments := c1model.assignments ++ [zAssign] } ∧
    (c1model.assignments ++ [zAssign]).find? (fun b => b.signal.name == "x") =
      c1model.assignments.find? (fun b => b.signal.name == "x") :=
  (c10_add_assignment_atomic c1model zAssign "x" (by decide)).2 (by rfl)

end Msdsl
